import Mathlib

/-!
# Verification of the indicator engine (`indicator_engine.py`)

A shallow embedding of the technical-indicator calculator of the
`tadbsimple` repository, together with theorems settling the frozen
claims about it.

Modelling conventions:
* Python `Decimal` values (prices, exact decimal arithmetic) and Python
  `float` intermediate ratios are both embedded as `ℚ`; where a value can
  be a non-finite IEEE float (the `math.isfinite` test inside `_atr14`)
  we use the four-constructor type `PyFloat` below.
* `Decimal.quantize(Decimal('0.01'), rounding=ROUND_HALF_UP)` is
  `roundHalfUp2` (ties away from zero); Python's builtin `round(x, 2)`
  (ties to even) is `pyRound2`.
* A Python value that may be `None` is an `Option`; a raised exception is
  an `Except.error`.
* Database rows `(date, open, high, low, close, volume)` become the
  structure `Bar` with the date as an integer day number (`timedelta`
  subtraction becomes integer subtraction) and the volume already
  converted to an integer with `NULL ↦ 0`, exactly as
  `DatabaseManager.get_price_history` does.
-/

/-- Rounding of a rational to the nearest integer, ties away from zero:
Python `Decimal` `ROUND_HALF_UP`. -/
def roundHalfUpInt (x : ℚ) : ℤ :=
  if x < 0 then -⌊-x + 1/2⌋ else ⌊x + 1/2⌋

/-- `Decimal.quantize(Decimal('0.01'), rounding=ROUND_HALF_UP)`:
round to 2 decimal places, ties away from zero. -/
def roundHalfUp2 (q : ℚ) : ℚ :=
  (roundHalfUpInt (q * 100) : ℚ) / 100

/-- Rounding of a rational to the nearest integer, ties to even:
the rule used by Python's builtin `round`. -/
def roundHalfEvenInt (x : ℚ) : ℤ :=
  let n := ⌊x⌋
  let f := x - n
  if f < 1/2 then n
  else if 1/2 < f then n + 1
  else if n % 2 = 0 then n else n + 1

/-- Python's builtin `round(x, 2)` on an exact value: round to 2 decimal
places, ties to even. -/
def pyRound2 (q : ℚ) : ℚ :=
  (roundHalfEvenInt (q * 100) : ℚ) / 100

/-- A Python float: a finite rational or one of the non-finite values.
Needed because `_atr14` tests `math.isfinite` on True-Range values. -/
inductive PyFloat where
  | fin (q : ℚ)
  | inf
  | ninf
  | nan
  deriving DecidableEq

/-- IEEE `<` as Python uses it: any comparison involving `nan` is false. -/
def pyLt : PyFloat → PyFloat → Bool
  | .fin a, .fin b => a < b
  | .fin _, .inf => true
  | .ninf, .fin _ => true
  | .ninf, .inf => true
  | _, _ => false

/-- Python `max(a, b)`: keeps the first argument, replaces it only when
the second is strictly greater. -/
def pyMax2 (a b : PyFloat) : PyFloat :=
  if pyLt a b then b else a

/-- IEEE subtraction on Python floats. -/
def pySub : PyFloat → PyFloat → PyFloat
  | .fin a, .fin b => .fin (a - b)
  | .fin _, .inf => .ninf
  | .fin _, .ninf => .inf
  | .inf, .fin _ => .inf
  | .ninf, .fin _ => .ninf
  | .inf, .ninf => .inf
  | .ninf, .inf => .ninf
  | .inf, .inf => .nan
  | .ninf, .ninf => .nan
  | .nan, _ => .nan
  | _, .nan => .nan

/-- IEEE absolute value on Python floats. -/
def pyAbs : PyFloat → PyFloat
  | .fin a => .fin |a|
  | .inf => .inf
  | .ninf => .inf
  | .nan => .nan

/-- `math.isfinite`. -/
def pyIsFinite : PyFloat → Bool
  | .fin _ => true
  | _ => false

/-- The finite payload of a Python float, if any. -/
def pyToFin : PyFloat → Option ℚ
  | .fin q => some q
  | _ => none

/-- `IndicatorCalculator._sma`: requires at least `window` values, sums
the non-`None` entries of the first `window` values with `Decimal`
precision, divides by `window`, rounds half-up to 2 decimals.
(`values[:window]` is `values.take window`; the `if val is not None`
test in the summation loop is the `filterMap id`.) -/
def _sma (values : List (Option ℚ)) (window : ℕ) : Option ℚ :=
  if values.length < window then none
  else
    let total := ((values.take window).filterMap id).sum
    some (roundHalfUp2 (total / (window : ℚ)))

/-- `IndicatorCalculator._sma_prev`: same as `_sma` but over
`values[1:window+1]`, requiring at least `window + 1` values. -/
def _sma_prev (values : List (Option ℚ)) (window : ℕ) : Option ℚ :=
  if values.length < window + 1 then none
  else
    let total := (((values.drop 1).take window).filterMap id).sum
    some (roundHalfUp2 (total / (window : ℚ)))

/-- `IndicatorCalculator._adr20`: Average Daily Range % over 20 days.
The accumulation loop over `zip(highs[:20], lows[:20])` keeps a running
range total and a count of pairs whose two sides are both non-`None`. -/
def _adr20 (highs lows : List (Option ℚ)) : Option ℚ :=
  if highs.length < 20 ∨ lows.length < 20 then none
  else
    let acc := (List.zip (highs.take 20) (lows.take 20)).foldl
      (fun acc p =>
        match p.1, p.2 with
        | some h, some l => (acc.1 + (h - l), acc.2 + 1)
        | _, _ => acc)
      ((0 : ℚ), (0 : ℕ))
    if acc.2 < 20 then none
    else some (roundHalfUp2 (acc.1 / 20 * 100))

/-- `IndicatorCalculator._avd20`: Average Dollar Volume over 20 days:
(mean of the non-`None` entries of the first 20 closes, divided by 20)
times (mean of the first 20 volumes). -/
def _avd20 (closes : List (Option ℚ)) (volumes : List ℤ) : Option ℚ :=
  if closes.length < 20 ∨ volumes.length < 20 then none
  else
    let total_close := ((closes.take 20).filterMap id).sum
    let avg_close := total_close / 20
    let avg_volume := (((volumes.take 20).sum : ℤ) : ℚ) / 20
    some (roundHalfUp2 (avg_close * avg_volume))

/-- One True-Range value: `max(H[i]-L[i], abs(H[i]-C[i-1]), abs(L[i]-C[i-1]))`
with Python `max` over floats. -/
def tr3 (h l prevC : PyFloat) : PyFloat :=
  pyMax2 (pyMax2 (pySub h l) (pyAbs (pySub h prevC))) (pyAbs (pySub l prevC))

/-- The True-Range loop of `_atr14` (`for i in range(1, n)`), with the
`math.isfinite` filter applied as each value is appended: called with
`prevC = C[0]` and the tails of the three chronological lists; the
recursion stops exactly when the shortest list runs out, which matches
the `range(1, n)` bound with `n` the minimum length. -/
def trLoop : PyFloat → List PyFloat → List PyFloat → List PyFloat → List ℚ
  | prevC, h :: hs, l :: ls, c :: cs =>
      (match pyToFin (tr3 h l prevC) with
       | some q => [q]
       | none => []) ++ trLoop c hs ls cs
  | _, _, _, _ => []

/-- The same True-Range loop without the `math.isfinite` filter: every
True-Range value, finite or not, in order. -/
def trLoopAll : PyFloat → List PyFloat → List PyFloat → List PyFloat → List PyFloat
  | prevC, h :: hs, l :: ls, c :: cs => tr3 h l prevC :: trLoopAll c hs ls cs
  | _, _, _, _ => []

/-- `IndicatorCalculator._atr14`: reverses the three most-recent-first
series to chronological order, computes the (finiteness-filtered)
True-Range list, requires at least 15 bars and 14 True-Range values,
seeds with the mean of the first 14, applies Wilder smoothing
`atr = (13*atr + TR_i)/14` to the rest, and rounds the result with
Python's `round(·, 2)`. -/
def _atr14 (highs lows closes : List PyFloat) : Option ℚ :=
  let H := highs.reverse
  let L := lows.reverse
  let C := closes.reverse
  let n := min (min H.length L.length) C.length
  if n < 15 then none
  else
    match H, L, C with
    | _ :: hs, _ :: ls, c0 :: cs =>
        let TR := trLoop c0 hs ls cs
        if TR.length < 14 then none
        else
          let seed := (TR.take 14).sum / 14
          some (pyRound2 ((TR.drop 14).foldl (fun atr tr => (13 * atr + tr) / 14) seed))
    | _, _, _ => none

/-- The True-Range sequence exactly as the spec words it, over
chronological rational series: "max(high−low, |high−prevClose|,
|low−prevClose|) for each day from the 2nd onward". -/
def trueRangeSpec : ℚ → List ℚ → List ℚ → List ℚ → List ℚ
  | prevC, h :: hs, l :: ls, c :: cs =>
      max (max (h - l) |h - prevC|) |l - prevC| :: trueRangeSpec c hs ls cs
  | _, _, _, _ => []

/-- Modelled from the spec's words (§4.1, ATR14), over chronological
(oldest-first) series of exact values: requires at least 15 bars, seeds
the running ATR with the simple mean of the first 14 True-Range values,
applies `atr = (13×atr + TR_i)/14` for each subsequent value, and
returns the result rounded to 2 decimals; absent below 15 bars. -/
def atr14Spec (H L C : List ℚ) : Option ℚ :=
  if H.length < 15 ∨ L.length < 15 ∨ C.length < 15 then none
  else
    match H, L, C with
    | _ :: hs, _ :: ls, c0 :: cs =>
        let TR := trueRangeSpec c0 hs ls cs
        some (pyRound2 ((TR.drop 14).foldl (fun atr tr => (13 * atr + tr) / 14)
          ((TR.take 14).sum / 14)))
    | _, _, _ => none

/-- `_atr14` re-expressed with the finiteness filter applied to the whole
True-Range sequence after it is built: the full list is computed first and
the non-finite entries are then removed before the seed and every
smoothing step alike. -/
def atr14DropNonfiniteEverywhere (highs lows closes : List PyFloat) : Option ℚ :=
  let H := highs.reverse
  let L := lows.reverse
  let C := closes.reverse
  let n := min (min H.length L.length) C.length
  if n < 15 then none
  else
    match H, L, C with
    | _ :: hs, _ :: ls, c0 :: cs =>
        let TR := (trLoopAll c0 hs ls cs).filterMap pyToFin
        if TR.length < 14 then none
        else
          let seed := (TR.take 14).sum / 14
          some (pyRound2 ((TR.drop 14).foldl (fun atr tr => (13 * atr + tr) / 14) seed))
    | _, _, _ => none

/-- IEEE addition on Python floats (used only to model the claim that a
non-finite True-Range value participates in the smoothing steps). -/
def pyAdd : PyFloat → PyFloat → PyFloat
  | .fin a, .fin b => .fin (a + b)
  | .fin _, .inf => .inf
  | .inf, .fin _ => .inf
  | .fin _, .ninf => .ninf
  | .ninf, .fin _ => .ninf
  | .inf, .inf => .inf
  | .ninf, .ninf => .ninf
  | .inf, .ninf => .nan
  | .ninf, .inf => .nan
  | .nan, _ => .nan
  | _, .nan => .nan

/-- IEEE multiplication on Python floats (claim model only). -/
def pyMul : PyFloat → PyFloat → PyFloat
  | .fin a, .fin b => .fin (a * b)
  | .fin a, .inf => if 0 < a then .inf else if a < 0 then .ninf else .nan
  | .inf, .fin b => if 0 < b then .inf else if b < 0 then .ninf else .nan
  | .fin a, .ninf => if 0 < a then .ninf else if a < 0 then .inf else .nan
  | .ninf, .fin b => if 0 < b then .ninf else if b < 0 then .inf else .nan
  | .inf, .inf => .inf
  | .ninf, .ninf => .inf
  | .inf, .ninf => .ninf
  | .ninf, .inf => .ninf
  | .nan, _ => .nan
  | _, .nan => .nan

/-- IEEE division on Python floats (claim model only; division of a
finite value by zero, which raises in Python, is mapped to `nan` and is
unreachable in the uses below, where the divisor is 14). -/
def pyDiv : PyFloat → PyFloat → PyFloat
  | .fin a, .fin b => if b = 0 then .nan else .fin (a / b)
  | .fin _, .inf => .fin 0
  | .fin _, .ninf => .fin 0
  | .inf, .fin b => if 0 ≤ b then .inf else .ninf
  | .ninf, .fin b => if 0 ≤ b then .ninf else .inf
  | .inf, .inf => .nan
  | .inf, .ninf => .nan
  | .ninf, .inf => .nan
  | .ninf, .ninf => .nan
  | .nan, _ => .nan
  | _, .nan => .nan

/-- Python `round(·, 2)` extended to non-finite floats (claim model
only): `round` leaves infinities and `nan` unchanged. -/
def pyRound2F : PyFloat → PyFloat
  | .fin q => .fin (pyRound2 q)
  | x => x

/-- Modelled from the claim (C2): a non-finite True-Range value is
dropped from the initial 14-value seed computation only, and still
participates in the subsequent Wilder smoothing steps; if skipping
non-finite values leaves fewer than 14 True-Range values, the result is
absent. The smoothing therefore runs in `PyFloat` arithmetic over the
unfiltered True-Range values after the first 14. -/
def atr14ClaimC2 (highs lows closes : List PyFloat) : Option PyFloat :=
  let H := highs.reverse
  let L := lows.reverse
  let C := closes.reverse
  let n := min (min H.length L.length) C.length
  if n < 15 then none
  else
    match H, L, C with
    | _ :: hs, _ :: ls, c0 :: cs =>
        let TRall := trLoopAll c0 hs ls cs
        let TRfin := TRall.filterMap pyToFin
        if TRfin.length < 14 then none
        else
          let seed : PyFloat := .fin ((TRfin.take 14).sum / 14)
          some (pyRound2F ((TRall.drop 14).foldl
            (fun atr tr => pyDiv (pyAdd (pyMul (.fin 13) atr) tr) (.fin 14)) seed))
    | _, _, _ => none

/-- The exceptions the embedded code can raise. -/
inductive PyError where
  | statisticsError
  deriving DecidableEq

/-- `statistics.mean` on a list of integers: raises `StatisticsError` on
an empty list, otherwise the exact arithmetic mean. -/
def statistics_mean (xs : List ℤ) : Except PyError ℚ :=
  if xs.isEmpty then .error .statisticsError
  else .ok ((xs.sum : ℚ) / (xs.length : ℚ))

/-- `IndicatorCalculator._volume_ratio`: requires at least
`max recent window` volumes; returns `None` when the mean of the first
`window` volumes is zero, otherwise the sum of the first `recent`
volumes divided by that mean, rounded with Python `round(·, 2)`.
A raised exception (from `statistics.mean`) is an `Except.error`. -/
def _volume_ratio (volumes : List ℤ) (recent window : ℕ) : Except PyError (Option ℚ) :=
  if volumes.length < max recent window then .ok none
  else
    let recent_sum := (volumes.take recent).sum
    match statistics_mean (volumes.take window) with
    | .error e => .error e
    | .ok avg_vol =>
        if avg_vol = 0 then .ok none
        else .ok (some (pyRound2 ((recent_sum : ℚ) / avg_vol)))

/-- The arithmetic mean of a list of integers as the spec words it
(used only in theorem statements). -/
def listMeanQ (xs : List ℤ) : ℚ :=
  ((xs.sum : ℤ) : ℚ) / (xs.length : ℚ)

/-- One row of `DatabaseManager.get_price_history`: the date as an
integer day number, the four prices as nullable exact decimals, and the
volume already converted to an integer (`NULL ↦ 0`). -/
structure Bar where
  date : ℤ
  open_ : Option ℚ
  high : Option ℚ
  low : Option ℚ
  close : Option ℚ
  volume : ℤ
  deriving DecidableEq

/-- One step of the scan in `find_max_close` (inside
`IndicatorCalculator._calculate_highs`): the running `(max_close,
max_date)` pair is replaced when the bar's close is truthy (non-null and
nonzero) and either no maximum is held yet or the close is strictly
greater. -/
def find_max_close_step (acc : Option (ℚ × ℤ)) (b : Bar) : Option (ℚ × ℤ) :=
  match b.close, acc with
  | some q, none => if q ≠ 0 then some (q, b.date) else acc
  | some q, some (m, _) => if q ≠ 0 ∧ m < q then some (q, b.date) else acc
  | none, _ => acc

/-- The scan loop of `find_max_close` over the chronological data. -/
def find_max_close_loop : List Bar → Option (ℚ × ℤ) → Option (ℚ × ℤ)
  | [], acc => acc
  | b :: rest, acc => find_max_close_loop rest (find_max_close_step acc b)

/-- `find_max_close` of `IndicatorCalculator._calculate_highs`: scans
oldest-to-newest keeping the first strictly-greatest truthy close, then
returns `(round(float(max_close), 2), max_date)` if the final
`max_close` is truthy, else `(None, None)`. -/
def find_max_close (data : List Bar) : Option ℚ × Option ℤ :=
  match find_max_close_loop data none with
  | some (m, d) => if m ≠ 0 then (some (pyRound2 m), some d) else (none, none)
  | none => (none, none)

/-- `IndicatorCalculator._calculate_highs`, as a function of the rows the
database returned for `get_price_history(symbol, days=420)` (descending
by date) and the target date: reverses to chronological order, filters
each window by its calendar cutoff (`target_date - timedelta(days=365)`
and `- timedelta(days=182)`), and finds the maximum close with its date
in each window. An empty row set yields four `None`s. -/
def _calculate_highs (rows : List Bar) (target_date : ℤ) :
    Option ℚ × Option ℤ × Option ℚ × Option ℤ :=
  if rows.isEmpty then (none, none, none, none)
  else
    let rowsC := rows.reverse
    let cutoff_52w := target_date - 365
    let cutoff_6m := target_date - 182
    let year_rows := rowsC.filter (fun r => cutoff_52w ≤ r.date)
    let m6_rows := rowsC.filter (fun r => cutoff_6m ≤ r.date)
    let ftwh := find_max_close year_rows
    let tswh := find_max_close m6_rows
    (ftwh.1, ftwh.2, tswh.1, tswh.2)

/-- A price column extraction in `calculate_for_symbol`:
`[r[k] for r in rows if r[k]]` — keeps a value only when it is truthy,
i.e. present and nonzero. -/
def extractCol (f : Bar → Option ℚ) (rows : List Bar) : List ℚ :=
  rows.filterMap fun r =>
    match f r with
    | some q => if q = 0 then none else some q
    | none => none

/-- The volume extraction in `calculate_for_symbol`:
`[r[5] for r in rows if r[5]]` — keeps the (integer) volume only when it
is truthy, i.e. nonzero. -/
def extractVol (rows : List Bar) : List ℤ :=
  rows.filterMap fun r => if r.volume = 0 then none else some r.volume

/-- Modelled from the claim (C6): the extraction drops exactly the null
entries of the column, retaining every present value including zero. -/
def extractColClaimC6 (f : Bar → Option ℚ) (rows : List Bar) : List ℚ :=
  rows.filterMap f

/-- The indicator tuple assembled by `calculate_for_symbol` (the symbol
and the formatted date string that head the Python tuple are carried by
the caller and omitted here). -/
structure IndicatorRecord where
  sma5 : Option ℚ
  sma10 : Option ℚ
  sma20 : Option ℚ
  sma50 : Option ℚ
  sma100 : Option ℚ
  sma200 : Option ℚ
  sma5s1 : Option ℚ
  sma10s1 : Option ℚ
  sma20s1 : Option ℚ
  sma50s1 : Option ℚ
  sma100s1 : Option ℚ
  sma200s1 : Option ℚ
  adr20 : Option ℚ
  avd20 : Option ℚ
  atr14 : Option ℚ
  a130 : Option ℚ
  a260 : Option ℚ
  a390 : Option ℚ
  ftwh : Option ℚ
  ftwhdate : Option ℤ
  tswh : Option ℚ
  tswhdate : Option ℤ
  deriving DecidableEq

/-- `IndicatorCalculator.calculate_for_symbol`, as a function of the rows
returned by `get_price_history(symbol, days=250)`, the rows returned by
`get_price_history(symbol, days=420)` (consumed by `_calculate_highs`),
and the target date. Fewer than 200 rows, an empty extracted series, or
a raised exception (the `try`/`except` around the body) all yield
`none`. The unused `opens` extraction of the source is dropped. -/
def calculate_for_symbol (rows rows420 : List Bar) (target_date : ℤ) :
    Option IndicatorRecord :=
  if rows.length < 200 then none
  else
    let closes := extractCol Bar.close rows
    let highs := extractCol Bar.high rows
    let lows := extractCol Bar.low rows
    let volumes := extractVol rows
    if closes.isEmpty ∨ highs.isEmpty ∨ lows.isEmpty ∨ volumes.isEmpty then none
    else
      match _volume_ratio volumes 1 30, _volume_ratio volumes 2 60,
            _volume_ratio volumes 3 90 with
      | .ok a130, .ok a260, .ok a390 =>
          let highsRes := _calculate_highs rows420 target_date
          some {
            sma5 := _sma (closes.map some) 5
            sma10 := _sma (closes.map some) 10
            sma20 := _sma (closes.map some) 20
            sma50 := _sma (closes.map some) 50
            sma100 := _sma (closes.map some) 100
            sma200 := _sma (closes.map some) 200
            sma5s1 := _sma_prev (closes.map some) 5
            sma10s1 := _sma_prev (closes.map some) 10
            sma20s1 := _sma_prev (closes.map some) 20
            sma50s1 := _sma_prev (closes.map some) 50
            sma100s1 := _sma_prev (closes.map some) 100
            sma200s1 := _sma_prev (closes.map some) 200
            adr20 := _adr20 (highs.map some) (lows.map some)
            avd20 := _avd20 (closes.map some) volumes
            atr14 := _atr14 (highs.map PyFloat.fin) (lows.map PyFloat.fin)
              (closes.map PyFloat.fin)
            a130 := a130
            a260 := a260
            a390 := a390
            ftwh := highsRes.1
            ftwhdate := highsRes.2.1
            tswh := highsRes.2.2.1
            tswhdate := highsRes.2.2.2 }
      | _, _, _ => none

/-- The symbol loop of `IndicatorCalculator.process_all_symbols`, with
the per-symbol calculator and the persistence sink abstracted: `calcF`
stands for `calculate_for_symbol` (already applied to the database) and
`insert` for `db.batch_insert_indicators`, which reports a row count.
Carries the current buffer and the running total; appends each
successful record, and whenever the buffer length reaches `batch_size`
flushes it and clears the buffer. -/
def processLoop {α ρ : Type} (calcF : α → Option ρ) (insert : List ρ → ℤ)
    (batch_size : ℕ) : List α → List ρ → ℤ → List ρ × ℤ
  | [], batch, total => (batch, total)
  | s :: rest, batch, total =>
      let batch1 :=
        match calcF s with
        | some r => batch ++ [r]
        | none => batch
      if batch_size ≤ batch1.length then
        processLoop calcF insert batch_size rest [] (total + insert batch1)
      else
        processLoop calcF insert batch_size rest batch1 total

/-- `IndicatorCalculator.process_all_symbols` from the point where the
symbol universe has been resolved: runs the symbol loop with an empty
buffer and zero total, flushes any non-empty remainder, and returns the
total of the row counts reported by the flushes. -/
def process_all_symbols {α ρ : Type} (symbols : List α) (calcF : α → Option ρ)
    (insert : List ρ → ℤ) (batch_size : ℕ) : ℤ :=
  let res := processLoop calcF insert batch_size symbols [] 0
  if res.1.isEmpty then res.2 else res.2 + insert res.1

/-- Fuel-driven splitting of a list into consecutive chunks of `bs`
elements (the last chunk may be shorter); used only to state what the
batch driver flushes. -/
def chunksGo {ρ : Type} (bs : ℕ) : ℕ → List ρ → List (List ρ)
  | _, [] => []
  | 0, l => [l]
  | fuel + 1, l => l.take bs :: chunksGo bs fuel (l.drop bs)

/-- The consecutive chunks of `bs` elements of a list, the last possibly
shorter; for `bs ≥ 1` the fuel `l.length` always suffices. -/
def chunksSpec {ρ : Type} (bs : ℕ) (l : List ρ) : List (List ρ) :=
  chunksGo bs l.length l

/-! ## Theorems -/

/-- The non-`None` entries of an all-`some` list are the underlying
list. -/
theorem filterMap_id_map_some (l : List ℚ) : (l.map some).filterMap id = l := by
  induction l with
  | nil => rfl
  | cons a t ih => simp [ih]

/-- Summing the present entries of a nullable list equals summing the
list with `None` read as zero. -/
theorem sum_filterMap_id (l : List (Option ℚ)) :
    (l.filterMap id).sum = (l.map (fun v => v.getD 0)).sum := by
  induction l with
  | nil => rfl
  | cons a t ih => cases a <;> simp [ih]

/-- C3: for every series and window `w ≥ 1`, `_sma` is absent exactly
when fewer than `w` values exist, and otherwise equals the arithmetic
mean of the first `w` elements computed exactly and rounded half-up to 2
decimals. -/
theorem sma_matches_spec (S : List ℚ) (w : ℕ) (hw : 0 < w) :
    _sma (S.map some) w =
      if S.length < w then none
      else some (roundHalfUp2 ((S.take w).sum / (w : ℚ))) := by
  by_cases h : S.length < w
  · simp [_sma, h]
  · simp only [_sma, List.length_map, if_neg h]
    rw [← List.map_take, filterMap_id_map_some]

/-- Witness for `sma_matches_spec` at a concrete input. -/
theorem sma_matches_spec_witness :
    _sma (([1, 2, 3] : List ℚ).map some) 2 =
      if ([1, 2, 3] : List ℚ).length < 2 then none
      else some (roundHalfUp2 ((([1, 2, 3] : List ℚ).take 2).sum / (2 : ℚ))) :=
  sma_matches_spec [1, 2, 3] 2 (by decide)

/-- C4: for every window `w ≥ 1`, the previous-day SMA is the SMA of the
series with its most recent element removed: it sums offsets `[1, w]`
and requires at least `w + 1` values. -/
theorem sma_prev_eq_sma_drop (S : List (Option ℚ)) (w : ℕ) (hw : 0 < w) :
    _sma_prev S w = _sma (S.drop 1) w := by
  simp only [_sma_prev, _sma, List.length_drop]
  split_ifs with h1 h2
  · rfl
  · omega
  · omega
  · rfl

/-- Witness for `sma_prev_eq_sma_drop` at a concrete input. -/
theorem sma_prev_eq_sma_drop_witness :
    _sma_prev [some 1, some 2, some 3] 2 = _sma ([some 1, some 2, some 3].drop 1) 2 :=
  sma_prev_eq_sma_drop [some 1, some 2, some 3] 2 (by decide)

/-- C10: when enough values exist, `_sma` (and `_sma_prev`) never return
absence because of embedded `None` entries: each `None` inside the
window contributes zero to the sum while the divisor stays the full
window size. -/
theorem sma_null_contributes_zero (S : List (Option ℚ)) (w : ℕ) (h : w ≤ S.length) :
    _sma S w = some (roundHalfUp2 (((S.take w).map (fun v => v.getD 0)).sum / (w : ℚ))) ∧
    (w + 1 ≤ S.length →
      _sma_prev S w =
        some (roundHalfUp2 ((((S.drop 1).take w).map (fun v => v.getD 0)).sum / (w : ℚ)))) := by
  constructor
  · simp only [_sma, if_neg (by omega : ¬S.length < w), sum_filterMap_id]
  · intro h2
    simp only [_sma_prev, if_neg (by omega : ¬S.length < w + 1), sum_filterMap_id]

/-- Witness for `sma_null_contributes_zero` at a concrete input with an
embedded `None`. -/
theorem sma_null_contributes_zero_witness :
    _sma [some 1, none, some 2, some 4] 3 =
      some (roundHalfUp2 ((([some 1, none, some 2, some 4].take 3).map
        (fun v => v.getD 0)).sum / (3 : ℚ))) ∧
    (3 + 1 ≤ ([some 1, none, some 2, some 4] : List (Option ℚ)).length →
      _sma_prev [some 1, none, some 2, some 4] 3 =
        some (roundHalfUp2 (((([some 1, none, some 2, some 4].drop 1).take 3).map
          (fun v => v.getD 0)).sum / (3 : ℚ)))) :=
  sma_null_contributes_zero [some 1, none, some 2, some 4] 3 (by decide)

/-- Python `max` on two finite floats is the rational `max`. -/
theorem pyMax2_fin (a b : ℚ) : pyMax2 (.fin a) (.fin b) = .fin (max a b) := by
  simp only [pyMax2, pyLt]
  by_cases h : a < b
  · simp [h, max_eq_right h.le]
  · simp [h, max_eq_left (not_lt.mp h)]

/-- A True-Range value over finite floats is the rational formula. -/
theorem tr3_fin (h l c : ℚ) :
    tr3 (.fin h) (.fin l) (.fin c) = .fin (max (max (h - l) |h - c|) |l - c|) := by
  simp [tr3, pySub, pyAbs, pyMax2_fin]

/-- On all-finite input the filtered True-Range loop computes exactly the
spec's True-Range sequence. -/
theorem trLoop_map_fin :
    ∀ (hs ls cs : List ℚ) (c0 : ℚ),
      trLoop (.fin c0) (hs.map .fin) (ls.map .fin) (cs.map .fin) =
        trueRangeSpec c0 hs ls cs
  | [], _, _, _ => by simp [trLoop, trueRangeSpec]
  | _ :: _, [], _, _ => by simp [trLoop, trueRangeSpec]
  | _ :: _, _ :: _, [], _ => by simp [trLoop, trueRangeSpec]
  | h :: hs, l :: ls, c :: cs, c0 => by
      simp only [List.map_cons, trLoop, trueRangeSpec, tr3_fin, pyToFin]
      rw [trLoop_map_fin hs ls cs c]
      rfl

/-- The length of the spec's True-Range sequence is the minimum of the
three tail lengths. -/
theorem trueRangeSpec_length :
    ∀ (c0 : ℚ) (hs ls cs : List ℚ),
      (trueRangeSpec c0 hs ls cs).length = min (min hs.length ls.length) cs.length
  | _, [], _, _ => by simp [trueRangeSpec]
  | _, _ :: _, [], _ => by simp [trueRangeSpec]
  | _, _ :: _, _ :: _, [] => by simp [trueRangeSpec]
  | c0, h :: hs, l :: ls, c :: cs => by
      simp only [trueRangeSpec, List.length_cons, trueRangeSpec_length c hs ls cs]
      omega

/-- C1: `_atr14` on most-recent-first series of a common length is the
spec's chronological ATR-14 computation applied to the reversed
(oldest-first) series: per-day True Range from the 2nd bar onward, seed
by the mean of the first 14 values, Wilder smoothing
`atr = (13*atr + TR_i)/14` for the rest, result rounded to 2 decimals,
absent below 15 bars. -/
theorem atr14_matches_spec (hs ls cs : List ℚ)
    (h1 : hs.length = cs.length) (h2 : ls.length = cs.length) :
    _atr14 (hs.map PyFloat.fin) (ls.map PyFloat.fin) (cs.map PyFloat.fin) =
      atr14Spec hs.reverse ls.reverse cs.reverse := by
  have eH : (hs.map PyFloat.fin).reverse = hs.reverse.map PyFloat.fin :=
    (List.map_reverse PyFloat.fin hs).symm
  have eL : (ls.map PyFloat.fin).reverse = ls.reverse.map PyFloat.fin :=
    (List.map_reverse PyFloat.fin ls).symm
  have eC : (cs.map PyFloat.fin).reverse = cs.reverse.map PyFloat.fin :=
    (List.map_reverse PyFloat.fin cs).symm
  by_cases hn : cs.length < 15
  · simp only [_atr14, atr14Spec, eH, eL, eC, List.length_map, List.length_reverse,
      h1, h2, min_self, or_self, if_pos hn]
  · rcases hhs : hs.reverse with _ | ⟨h0, hs'⟩
    · have : hs.length = 0 := by
        have := congrArg List.length hhs; simpa using this
      omega
    rcases hls : ls.reverse with _ | ⟨l0, ls'⟩
    · have : ls.length = 0 := by
        have := congrArg List.length hls; simpa using this
      omega
    rcases hcs : cs.reverse with _ | ⟨c0, cs'⟩
    · have : cs.length = 0 := by
        have := congrArg List.length hcs; simpa using this
      omega
    have lh : hs'.length = cs.length - 1 := by
      have := congrArg List.length hhs; simp at this; omega
    have ll : ls'.length = cs.length - 1 := by
      have := congrArg List.length hls; simp at this; omega
    have lc : cs'.length = cs.length - 1 := by
      have := congrArg List.length hcs; simp at this; omega
    have hTRlen : (trueRangeSpec c0 hs' ls' cs').length = cs.length - 1 := by
      rw [trueRangeSpec_length]; omega
    simp only [_atr14, atr14Spec, eH, eL, eC, hhs, hls, hcs, List.map_cons,
      List.length_cons, List.length_map, List.length_reverse]
    rw [trLoop_map_fin hs' ls' cs' c0]
    have hc1 : ¬(min (min (hs'.length + 1) (ls'.length + 1)) (cs'.length + 1) < 15) := by
      omega
    have hc2 : ¬(hs'.length + 1 < 15 ∨ ls'.length + 1 < 15 ∨ cs'.length + 1 < 15) := by
      omega
    have hc3 : ¬((trueRangeSpec c0 hs' ls' cs').length < 14) := by
      omega
    simp [hc1, hc2, hc3]

/-- Witness for `atr14_matches_spec` at a concrete 15-bar input. -/
theorem atr14_matches_spec_witness :
    _atr14 ((List.replicate 15 (2 : ℚ)).map PyFloat.fin)
        ((List.replicate 15 (1 : ℚ)).map PyFloat.fin)
        ((List.replicate 15 (1 : ℚ)).map PyFloat.fin) =
      atr14Spec (List.replicate 15 (2 : ℚ)).reverse (List.replicate 15 (1 : ℚ)).reverse
        (List.replicate 15 (1 : ℚ)).reverse :=
  atr14_matches_spec _ _ _ (by simp) (by simp)

/-- The filtered True-Range loop is the unfiltered loop with every
non-finite value removed. -/
theorem trLoop_eq_filterMap :
    ∀ (pc : PyFloat) (hs ls cs : List PyFloat),
      trLoop pc hs ls cs = (trLoopAll pc hs ls cs).filterMap pyToFin
  | _, [], _, _ => by simp [trLoop, trLoopAll]
  | _, _ :: _, [], _ => by simp [trLoop, trLoopAll]
  | _, _ :: _, _ :: _, [] => by simp [trLoop, trLoopAll]
  | pc, h :: hs, l :: ls, c :: cs => by
      simp only [trLoop, trLoopAll, List.filterMap_cons, trLoop_eq_filterMap c hs ls cs]
      cases pyToFin (tr3 h l pc) <;> simp

/-- C2 (amended): `_atr14` drops non-finite True-Range values from the
whole computation, not only from the seed: it equals the variant that
filters the complete True-Range sequence before both the seed and every
smoothing step, and is absent when fewer than 14 finite values remain. -/
theorem atr14_drops_nonfinite_everywhere (highs lows closes : List PyFloat) :
    _atr14 highs lows closes = atr14DropNonfiniteEverywhere highs lows closes := by
  simp only [_atr14, atr14DropNonfiniteEverywhere, trLoop_eq_filterMap]

/-- C2 (counterexample): on 16 bars whose oldest-first highs end with
`inf`, the 15th True-Range value is non-finite; `_atr14` drops it from
the smoothing as well and returns 2, while the computation the claim
describes feeds it into a smoothing step and produces infinity. -/
theorem atr14_nonfinite_counterexample :
    _atr14 [PyFloat.inf, .fin 11, .fin 11, .fin 11, .fin 11, .fin 11, .fin 11, .fin 11,
        .fin 11, .fin 11, .fin 11, .fin 11, .fin 11, .fin 11, .fin 11, .fin 11]
      [.fin 9, .fin 9, .fin 9, .fin 9, .fin 9, .fin 9, .fin 9, .fin 9,
        .fin 9, .fin 9, .fin 9, .fin 9, .fin 9, .fin 9, .fin 9, .fin 9]
      [.fin 10, .fin 10, .fin 10, .fin 10, .fin 10, .fin 10, .fin 10, .fin 10,
        .fin 10, .fin 10, .fin 10, .fin 10, .fin 10, .fin 10, .fin 10, .fin 10] = some 2 ∧
    atr14ClaimC2 [PyFloat.inf, .fin 11, .fin 11, .fin 11, .fin 11, .fin 11, .fin 11, .fin 11,
        .fin 11, .fin 11, .fin 11, .fin 11, .fin 11, .fin 11, .fin 11, .fin 11]
      [.fin 9, .fin 9, .fin 9, .fin 9, .fin 9, .fin 9, .fin 9, .fin 9,
        .fin 9, .fin 9, .fin 9, .fin 9, .fin 9, .fin 9, .fin 9, .fin 9]
      [.fin 10, .fin 10, .fin 10, .fin 10, .fin 10, .fin 10, .fin 10, .fin 10,
        .fin 10, .fin 10, .fin 10, .fin 10, .fin 10, .fin 10, .fin 10, .fin 10] =
      some PyFloat.inf := by
  constructor
  · norm_num [_atr14, trLoop, tr3, pySub, pyAbs, pyMax2, pyLt, pyToFin, pyRound2,
      roundHalfEvenInt]
  · norm_num [atr14ClaimC2, trLoopAll, tr3, pySub, pyAbs, pyMax2, pyLt, pyToFin,
      pyAdd, pyMul, pyDiv, pyRound2F, pyRound2, roundHalfEvenInt,
      List.filterMap_cons, List.filterMap_nil]

/-- C5: a symbol whose primary history has fewer than 200 bars produces
no record: the 200-bar minimum is the first check of
`calculate_for_symbol` and yields an absent result, not a fault. -/
theorem calculate_for_symbol_insufficient (rows rows420 : List Bar) (target_date : ℤ)
    (h : rows.length < 200) :
    calculate_for_symbol rows rows420 target_date = none := by
  simp only [calculate_for_symbol, if_pos h]

/-- Witness for `calculate_for_symbol_insufficient` at exactly 199 bars. -/
theorem calculate_for_symbol_insufficient_witness :
    calculate_for_symbol (List.replicate 199 ⟨0, none, none, none, none, 0⟩) [] 0 = none :=
  calculate_for_symbol_insufficient _ _ _ (by rw [List.length_replicate]; omega)

/-- C6 (amended): each extracted price series drops the null entries and
the zero entries of its column (Python truthiness), keeping the
remaining values in order; the volume extraction likewise drops exactly
the zero volumes. -/
theorem extract_drops_null_and_zero (f : Bar → Option ℚ) (rows : List Bar) :
    extractCol f rows = (rows.filterMap f).filter (fun q => decide (q ≠ 0)) ∧
    extractVol rows = (rows.map Bar.volume).filter (fun v => decide (v ≠ 0)) := by
  constructor
  · induction rows with
    | nil => rfl
    | cons b t ih =>
        cases hb : f b with
        | none => simpa [extractCol, List.filterMap_cons, hb] using ih
        | some q =>
            by_cases hq : q = 0
            · simpa [extractCol, List.filterMap_cons, hb, hq] using ih
            · simpa [extractCol, List.filterMap_cons, hb, hq] using ih
  · induction rows with
    | nil => rfl
    | cons b t ih =>
        by_cases hv : b.volume = 0
        · simpa [extractVol, List.filterMap_cons, hv] using ih
        · simpa [extractVol, List.filterMap_cons, hv] using ih

/-- C6 (counterexample): a bar whose close is present but zero is dropped
by the extraction (Python truthiness), not retained as the claim states;
the claim's drop-only-nulls extraction keeps it. A zero volume is
likewise dropped. -/
theorem extract_zero_counterexample :
    extractCol Bar.close
        [⟨1, none, none, none, some 0, 5⟩, ⟨2, none, none, none, some 5, 0⟩] = [5] ∧
    extractColClaimC6 Bar.close
        [⟨1, none, none, none, some 0, 5⟩, ⟨2, none, none, none, some 5, 0⟩] = [0, 5] ∧
    extractVol
        [⟨1, none, none, none, some 0, 5⟩, ⟨2, none, none, none, some 5, 0⟩] = [5] := by
  refine ⟨?_, ?_, ?_⟩ <;>
    norm_num [extractCol, extractColClaimC6, extractVol, List.filterMap_cons]

/-- C7 (counterexample): with window 0 and one volume — which satisfies
the `max(recent, window)` length requirement — the code raises
`StatisticsError` from `statistics.mean([])` instead of returning an
absent value. -/
theorem volume_ratio_raises_counterexample :
    _volume_ratio [1] 1 0 = .error PyError.statisticsError := rfl

/-- C7 (amended): for window ≥ 1 and at least `max(recent, window)`
volumes, `_volume_ratio` never raises: it is absent exactly when the
mean of the first `window` volumes is zero, and otherwise the sum of the
first `recent` volumes divided by that mean, rounded to 2 decimals (the
rational codomain has no infinite value). -/
theorem volume_ratio_safe (volumes : List ℤ) (recent window : ℕ)
    (hw : 1 ≤ window) (hl : max recent window ≤ volumes.length) :
    _volume_ratio volumes recent window =
      .ok (if listMeanQ (volumes.take window) = 0 then none
           else some (pyRound2 (((volumes.take recent).sum : ℚ) /
             listMeanQ (volumes.take window)))) := by
  have hlen : (volumes.take window).length = window := by
    simp only [List.length_take]; omega
  have hne : (volumes.take window).isEmpty = false := by
    cases hc : volumes.take window with
    | nil => rw [hc] at hlen; simp at hlen; omega
    | cons a t => rfl
  simp only [_volume_ratio, statistics_mean, listMeanQ, hne, Bool.false_eq_true, if_false,
    if_neg (show ¬volumes.length < max recent window by omega)]
  split_ifs with hz <;> rfl

/-- Witness for `volume_ratio_safe` at a concrete input. -/
theorem volume_ratio_safe_witness :
    _volume_ratio [2, 4] 1 2 =
      .ok (if listMeanQ (([2, 4] : List ℤ).take 2) = 0 then none
           else some (pyRound2 (((([2, 4] : List ℤ).take 1).sum : ℚ) /
             listMeanQ (([2, 4] : List ℤ).take 2)))) :=
  volume_ratio_safe [2, 4] 1 2 (by decide) (by decide)

/-- The `find_max_close` scan over an appended list is the scan of the
second part started from the scan of the first. -/
theorem find_max_close_loop_append (xs ys : List Bar) (acc : Option (ℚ × ℤ)) :
    find_max_close_loop (xs ++ ys) acc =
      find_max_close_loop ys (find_max_close_loop xs acc) := by
  induction xs generalizing acc with
  | nil => rfl
  | cons b t ih =>
      simp only [List.cons_append, find_max_close_loop]
      exact ih _

/-- Once the scan holds a value that bounds every later truthy close, no
later bar replaces it (ties do not replace: only strictly greater
closes do). -/
theorem find_max_close_loop_keep :
    ∀ (data : List Bar) (m : ℚ) (d : ℤ),
      (∀ r ∈ data, ∀ q, r.close = some q → q ≠ 0 → q ≤ m) →
      find_max_close_loop data (some (m, d)) = some (m, d) := by
  intro data
  induction data with
  | nil => intro m d _; rfl
  | cons b t ih =>
      intro m d hb
      have hstep : find_max_close_step (some (m, d)) b = some (m, d) := by
        cases hc : b.close with
        | none => simp [find_max_close_step, hc]
        | some q =>
            have hnot : ¬(q ≠ 0 ∧ m < q) := by
              rintro ⟨hq0, hlt⟩
              exact absurd (hb b (List.mem_cons_self b t) q hc hq0) (not_le.mpr hlt)
            simp only [find_max_close_step, hc, if_neg hnot]
      simp only [find_max_close_loop, hstep]
      exact ih m d (fun r hr => hb r (List.mem_cons_of_mem _ hr))

/-- Scanning bars whose truthy closes are all strictly below `m` keeps
the accumulator strictly below `m` (or empty). -/
theorem find_max_close_loop_pre :
    ∀ (pre : List Bar) (m : ℚ) (acc : Option (ℚ × ℤ)),
      (∀ r ∈ pre, ∀ q, r.close = some q → q ≠ 0 → q < m) →
      (acc = none ∨ ∃ q d, acc = some (q, d) ∧ q < m) →
      (find_max_close_loop pre acc = none ∨
        ∃ q d, find_max_close_loop pre acc = some (q, d) ∧ q < m) := by
  intro pre
  induction pre with
  | nil => intro m acc _ hacc; exact hacc
  | cons b t ih =>
      intro m acc hb hacc
      simp only [find_max_close_loop]
      apply ih m _ (fun r hr => hb r (List.mem_cons_of_mem _ hr))
      rcases hacc with h | ⟨q, d, hq, hlt⟩
      · subst h
        cases hc : b.close with
        | none => left; simp [find_max_close_step, hc]
        | some q =>
            by_cases hq0 : q ≠ 0
            · right
              exact ⟨q, b.date, by simp only [find_max_close_step, hc, if_pos hq0],
                hb b (List.mem_cons_self b t) q hc hq0⟩
            · left; simp only [find_max_close_step, hc, if_neg hq0]
      · subst hq
        cases hc : b.close with
        | none => right; exact ⟨q, d, by simp [find_max_close_step, hc], hlt⟩
        | some p =>
            by_cases hp : p ≠ 0 ∧ q < p
            · right
              exact ⟨p, b.date, by simp only [find_max_close_step, hc, if_pos hp],
                hb b (List.mem_cons_self b t) p hc hp.1⟩
            · right; exact ⟨q, d, by simp only [find_max_close_step, hc, if_neg hp], hlt⟩

/-- Bars whose closes are all null or zero never set the accumulator. -/
theorem find_max_close_loop_nullzero :
    ∀ data : List Bar, (∀ r ∈ data, r.close = none ∨ r.close = some 0) →
      find_max_close_loop data none = none := by
  intro data
  induction data with
  | nil => intro _; rfl
  | cons b t ih =>
      intro hall
      have hstep : find_max_close_step none b = none := by
        rcases hall b (List.mem_cons_self b t) with hc | hc
        · simp [find_max_close_step, hc]
        · simp [find_max_close_step, hc]
      simp only [find_max_close_loop, hstep]
      exact ih (fun r hr => hall r (List.mem_cons_of_mem _ hr))

/-- C8 (amended): the high-water computation filters the chronological
bars by the calendar cutoff of each lookback window and scans for the
maximum close, where a zero close is treated like a null one (Python
truthiness). Among two or more bars tying at a nonzero maximum close the
earliest bar's date is returned with the rounded close; a window whose
bars all have null-or-zero closes (in particular an empty window) yields
an absent pair. -/
theorem rolling_high_earliest_tie :
    (∀ (rows : List Bar) (target_date : ℤ), rows ≠ [] →
        _calculate_highs rows target_date =
          ((find_max_close (rows.reverse.filter (fun r => target_date - 365 ≤ r.date))).1,
           (find_max_close (rows.reverse.filter (fun r => target_date - 365 ≤ r.date))).2,
           (find_max_close (rows.reverse.filter (fun r => target_date - 182 ≤ r.date))).1,
           (find_max_close (rows.reverse.filter (fun r => target_date - 182 ≤ r.date))).2)) ∧
    (∀ (pre post : List Bar) (b : Bar) (m : ℚ),
        b.close = some m → m ≠ 0 →
        (∀ r ∈ pre ++ b :: post, ∀ q, r.close = some q → q ≠ 0 → q ≤ m) →
        (∀ r ∈ pre, r.close ≠ some m) →
        find_max_close (pre ++ b :: post) = (some (pyRound2 m), some b.date)) ∧
    (∀ data : List Bar, (∀ r ∈ data, r.close = none ∨ r.close = some 0) →
        find_max_close data = (none, none)) := by
  refine ⟨?_, ?_, ?_⟩
  · intro rows target_date hne
    cases rows with
    | nil => exact absurd rfl hne
    | cons b t => rfl
  · intro pre post b m hbm hm0 hbound hpre
    have hpost : ∀ r ∈ post, ∀ q, r.close = some q → q ≠ 0 → q ≤ m :=
      fun r hr q hq hq0 =>
        hbound r (List.mem_append_right _ (List.mem_cons_of_mem _ hr)) q hq hq0
    have hpreInv := find_max_close_loop_pre pre m none
      (fun r hr q hq hq0 =>
        lt_of_le_of_ne (hbound r (List.mem_append_left _ hr) q hq hq0)
          (fun he => hpre r hr (he ▸ hq)))
      (Or.inl rfl)
    unfold find_max_close
    rw [find_max_close_loop_append]
    rcases hpreInv with hnone | ⟨q, d, heq, hlt⟩
    · rw [hnone]
      simp only [find_max_close_loop, find_max_close_step, hbm, if_pos hm0]
      rw [find_max_close_loop_keep post m b.date hpost]
      simp [hm0]
    · rw [heq]
      simp only [find_max_close_loop, find_max_close_step, hbm,
        if_pos (And.intro hm0 hlt)]
      rw [find_max_close_loop_keep post m b.date hpost]
      simp [hm0]
  · intro data hall
    unfold find_max_close
    rw [find_max_close_loop_nullzero data hall]

/-- Witness for `rolling_high_earliest_tie` (the tie clause) at a
concrete window with two bars tying at the maximum close 5: the earlier
date 2 is returned. -/
theorem rolling_high_earliest_tie_witness :
    find_max_close ([⟨1, none, none, none, some 3, 1⟩] ++
        ⟨2, none, none, none, some 5, 1⟩ :: [⟨3, none, none, none, some 5, 1⟩]) =
      (some (pyRound2 5), some 2) :=
  rolling_high_earliest_tie.2.1 [⟨1, none, none, none, some 3, 1⟩]
    [⟨3, none, none, none, some 5, 1⟩] ⟨2, none, none, none, some 5, 1⟩ 5
    rfl (by norm_num) (by decide) (by decide)

/-- C8 (counterexample): two bars inside both lookback windows share the
maximum close 0, yet the computation returns four `None`s because a zero
close is falsy in Python — not the tied close with its earliest date. -/
theorem rolling_high_zero_tie_counterexample :
    (([(⟨11, none, none, none, some 0, 1⟩ : Bar), ⟨10, none, none, none, some 0, 1⟩] :
        List Bar).reverse.filter (fun r => (20 : ℤ) - 365 ≤ r.date)).map Bar.close =
      [some 0, some 0] ∧
    _calculate_highs [⟨11, none, none, none, some 0, 1⟩, ⟨10, none, none, none, some 0, 1⟩]
        20 = (none, none, none, none) := by
  constructor
  · decide
  · decide

/-- `chunksGo` ignores the fuel as long as it covers the list length. -/
theorem chunksGo_fuel_irrel {ρ : Type} (bs : ℕ) (hbs : 1 ≤ bs) :
    ∀ (f1 f2 : ℕ) (l : List ρ), l.length ≤ f1 → l.length ≤ f2 →
      chunksGo bs f1 l = chunksGo bs f2 l := by
  intro f1
  induction f1 with
  | zero =>
      intro f2 l h1 _
      have : l = [] := List.length_eq_zero.mp (Nat.le_zero.mp h1)
      subst this
      cases f2 <;> rfl
  | succ n ih =>
      intro f2 l h1 h2
      cases l with
      | nil => cases f2 <;> rfl
      | cons x xs =>
          cases f2 with
          | zero => simp at h2
          | succ m =>
              simp only [List.length_cons] at h1 h2
              simp only [chunksGo]
              congr 1
              apply ih m ((x :: xs).drop bs)
              · simp only [List.length_drop, List.length_cons]; omega
              · simp only [List.length_drop, List.length_cons]; omega

/-- Unfolding `chunksSpec` one chunk at a time on a non-empty list. -/
theorem chunksSpec_cons {ρ : Type} (bs : ℕ) (hbs : 1 ≤ bs) (x : ρ) (xs : List ρ) :
    chunksSpec bs (x :: xs) = (x :: xs).take bs :: chunksSpec bs ((x :: xs).drop bs) := by
  unfold chunksSpec
  simp only [List.length_cons, chunksGo]
  congr 1
  apply chunksGo_fuel_irrel bs hbs xs.length ((x :: xs).drop bs).length
  · simp only [List.length_drop, List.length_cons]; omega
  · exact le_rfl

/-- A leading chunk of exactly `bs` elements splits off. -/
theorem chunksSpec_chunk {ρ : Type} (bs : ℕ) (hbs : 1 ≤ bs) (l1 l2 : List ρ)
    (h : l1.length = bs) :
    chunksSpec bs (l1 ++ l2) = l1 :: chunksSpec bs l2 := by
  cases l1 with
  | nil => simp at h; omega
  | cons x xs =>
      rw [List.cons_append, chunksSpec_cons bs hbs, ← List.cons_append,
        List.take_left' h, List.drop_left' h]

/-- The symbol loop (followed by the final remainder flush) reports the
total of the `insert` row counts over the size-`bs` chunks of the
records produced so far. -/
theorem processLoop_flushes {α ρ : Type} (calcF : α → Option ρ) (insert : List ρ → ℤ)
    (bs : ℕ) (hbs : 1 ≤ bs) :
    ∀ (symbols : List α) (batch : List ρ) (total : ℤ), batch.length < bs →
      (let res := processLoop calcF insert bs symbols batch total
       if res.1.isEmpty then res.2 else res.2 + insert res.1) =
        total + ((chunksSpec bs (batch ++ symbols.filterMap calcF)).map insert).sum := by
  intro symbols
  induction symbols with
  | nil =>
      intro batch total hlen
      simp only [processLoop, List.filterMap_nil, List.append_nil]
      cases batch with
      | nil => simp [chunksSpec, chunksGo]
      | cons x xs =>
          rw [chunksSpec_cons bs hbs]
          have ht : (x :: xs).take bs = x :: xs :=
            List.take_of_length_le (by omega)
          have hd : (x :: xs).drop bs = [] :=
            List.drop_eq_nil_of_le (by omega)
          rw [ht, hd]
          simp [chunksSpec, chunksGo]
  | cons s rest ih =>
      intro batch total hlen
      simp only [processLoop]
      cases hc : calcF s with
      | none =>
          rw [if_neg (by omega : ¬bs ≤ batch.length)]
          have := ih batch total hlen
          simpa [List.filterMap_cons, hc] using this
      | some r =>
          by_cases hfull : bs ≤ (batch ++ [r]).length
          · rw [if_pos hfull]
            have hlen1 : (batch ++ [r]).length = bs := by
              simp only [List.length_append, List.length_cons, List.length_nil] at hfull ⊢
              omega
            have hrw := ih [] (total + insert (batch ++ [r])) (by simpa using hbs)
            simp only [List.nil_append] at hrw
            rw [hrw]
            have hassoc : batch ++ List.filterMap calcF (s :: rest) =
                (batch ++ [r]) ++ List.filterMap calcF rest := by
              simp [List.filterMap_cons, hc]
            rw [hassoc, chunksSpec_chunk bs hbs _ _ hlen1]
            simp only [List.map_cons, List.sum_cons]
            ring
          · rw [if_neg hfull]
            have hlt : (batch ++ [r]).length < bs := by
              simp only [List.length_append, List.length_cons, List.length_nil] at hfull ⊢
              omega
            have := ih (batch ++ [r]) total hlt
            rw [this]
            have hassoc : (batch ++ [r]) ++ List.filterMap calcF rest =
                batch ++ List.filterMap calcF (s :: rest) := by
              simp [List.filterMap_cons, hc]
            rw [hassoc]

/-- C9: for a positive batch size, the batch driver's total is the sum of
the row counts `insert` reports on the successive size-`batch_size`
chunks (last one possibly smaller, empty remainder not flushed) of the
successful per-symbol records, in symbol order. -/
theorem process_all_symbols_batches {α ρ : Type} (symbols : List α)
    (calcF : α → Option ρ) (insert : List ρ → ℤ) (batch_size : ℕ)
    (hbs : 1 ≤ batch_size) :
    process_all_symbols symbols calcF insert batch_size =
      ((chunksSpec batch_size (symbols.filterMap calcF)).map insert).sum := by
  have h := processLoop_flushes calcF insert batch_size hbs symbols [] 0 (by simpa using hbs)
  simpa [process_all_symbols] using h

/-- Witness for `process_all_symbols_batches` at a concrete run: three
symbols, every record kept, batch size 2, `insert` reporting the batch
length. -/
theorem process_all_symbols_batches_witness :
    process_all_symbols [1, 2, 3] (fun n => some n) (fun l => (l.length : ℤ)) 2 =
      ((chunksSpec 2 (([1, 2, 3] : List ℕ).filterMap (fun n => some n))).map
        (fun l => (l.length : ℤ))).sum :=
  process_all_symbols_batches [1, 2, 3] (fun n => some n) (fun l => (l.length : ℤ)) 2
    (by decide)
